import Mathlib

/-!
# A verification model of the `binaryex` binary codec

This file is a shallow embedding, in Lean, of the Go package `binaryex`
(file `binaryex.go`), which marshals arbitrary Go values to a byte stream
and back.  The embedding mirrors the current version of the source:

* bytes are natural numbers `< 256`, a stream is a `List Nat`;
* `putUvarint` / `readUvarint` mirror `encoding/binary.PutUvarint` and
  `encoding/binary.ReadUvarint` (7 data bits per byte, continuation bit,
  at most 10 bytes, overflow checks as in the Go standard library);
* `putVarint` / `readVarint` mirror the zig-zag signed forms
  `PutVarint` / `ReadVarint`;
* Go values are modelled by the inductive `GoVal`, Go static types by
  `GoType`; floating point and complex values are represented by the bit
  pattern of the value promoted to 64 bits (`v.Float()` / `v.Complex()`
  promote before anything touches the wire, and the promotion from a
  32-bit value is exact and injective, so no information is lost);
* `writeVal` mirrors `WriteReflect` and the per-kind `Write*Reflect`
  functions; `readVal` mirrors `ReadReflect` and the per-kind
  `Read*Reflect` functions, including the temporary-value allocation of
  `ReadReflect` and the in-place, partially-mutating behaviour of
  `ReadArrayReflect` / `ReadSliceReflect` / `ReadMapReflect` /
  `ReadStructReflect`;
* Go iterates a map in an unspecified order; a `GoVal` map carries its
  pair list in the iteration order of the call being modelled, and the
  relation `EquivVal` identifies the representatives of one Go value
  across calls (equal up to per-map reordering of the pairs).
-/

namespace Binaryex

/-- The error values of the package: `ErrUnsupportedValue`,
`ErrUnadressableValue`, `ErrUnexpected`, plus the transport errors
(`io.EOF` / `io.ErrUnexpectedEOF`, collapsed to `eof`) and the varint
overflow error of `encoding/binary`. -/
inductive Err where
  | unsupportedValue
  | unadressableValue
  | unexpectedValue
  | eof
  | overflow
deriving DecidableEq, Repr

/-- `binary.PutUvarint`: emit 7 bits per byte, low bits first, setting the
continuation bit `0x80` on every byte but the last. -/
def putUvarint (x : Nat) : List Nat :=
  if h : x < 128 then [x]
  else (x % 128 + 128) :: putUvarint (x / 128)
decreasing_by exact Nat.div_lt_self (by omega) (by omega)

/-- The zig-zag map used by `binary.PutVarint`:
`ux := uint64(x) << 1; if x < 0 then ux = ^ux`.  For `x ≥ 0` this is `2*x`,
for `x < 0` it is `-2*x - 1`. -/
def zigzag (n : Int) : Nat :=
  if 0 ≤ n then (2 * n).toNat else (-2 * n - 1).toNat

/-- `binary.PutVarint`: zig-zag, then unsigned varint. -/
def putVarint (n : Int) : List Nat :=
  putUvarint (zigzag n)

/-- The loop body of `binary.ReadUvarint`.  `fuel` counts the loop
iterations still allowed (`MaxVarintLen64 = 10` at the initial call), `x`
and `s` are the accumulator and shift of the Go code.  Shifts wrap modulo
`2^64` exactly as `uint64` arithmetic does. -/
def readUvarintAux : Nat → Nat → Nat → List Nat → Option Err × Nat × List Nat
  | 0, x, _, bs => (some .overflow, x, bs)
  | _ + 1, x, _, [] => (some .eof, x, [])
  | fuel + 1, x, s, b :: rest =>
    if b < 128 then
      if fuel = 0 ∧ 1 < b then (some .overflow, x, rest)
      else (none, x ||| (b <<< s) % 2 ^ 64, rest)
    else
      readUvarintAux fuel (x ||| ((b % 128) <<< s) % 2 ^ 64) (s + 7) rest

/-- `binary.ReadUvarint` on a byte stream.  The error (if any), the value,
and the stream position after the consumed bytes are all returned, because
the Go reader has already advanced when an error surfaces. -/
def readUvarint (bs : List Nat) : Option Err × Nat × List Nat :=
  readUvarintAux 10 0 0 bs

/-- The inverse zig-zag map of `binary.ReadVarint`:
`x := int64(ux >> 1); if ux&1 != 0 then x = ^x`. -/
def unzigzag (u : Nat) : Int :=
  if u % 2 = 0 then (u / 2 : Nat) else -(u / 2 : Nat) - 1

/-- `binary.ReadVarint`: unsigned varint, then inverse zig-zag. -/
def readVarint (bs : List Nat) : Option Err × Int × List Nat :=
  match readUvarint bs with
  | (e, u, rest) => (e, unzigzag u, rest)

/-- Little-endian byte expansion on `k` bytes, as produced by
`binary.Write(w, binary.LittleEndian, _)` for fixed-width data. -/
def toLEBytes : Nat → Nat → List Nat
  | 0, _ => []
  | k + 1, n => n % 256 :: toLEBytes k (n / 256)

/-- The 8 little-endian bytes of a 64-bit pattern. -/
def le64 (n : Nat) : List Nat := toLEBytes 8 n

/-- Read `k` little-endian bytes, as `binary.Read` does through
`io.ReadFull`; a short stream fails (unexpected end of data) without
delivering a value. -/
def readLEBytes : Nat → List Nat → Option Err × Nat × List Nat
  | 0, bs => (none, 0, bs)
  | _ + 1, [] => (some .eof, 0, [])
  | k + 1, b :: rest =>
    match readLEBytes k rest with
    | (some e, n, rest1) => (some e, n, rest1)
    | (none, n, rest1) => (none, b + 256 * n, rest1)

/-! ## Round-trip facts about the byte-level codec -/

/-- Two bit ranges that do not overlap combine by `|||` exactly as they do
by `+`. -/
theorem lor_disjoint : ∀ (s a b : Nat), a < 2 ^ s →
    a ||| b * 2 ^ s = a + b * 2 ^ s := by
  intro s
  induction s with
  | zero =>
    intro a b ha
    have : a = 0 := by omega
    subst this
    simp
  | succ s ih =>
    intro a b ha
    have h2s : (2 : Nat) ^ (s + 1) = 2 * 2 ^ s := by rw [pow_succ]; ring
    obtain ⟨q, r, hr2, hqr⟩ : ∃ q r, r < 2 ∧ a = 2 * q + r :=
      ⟨a / 2, a % 2, Nat.mod_lt _ (by norm_num), by omega⟩
    subst hqr
    have hq : q < 2 ^ s := by omega
    have hbB : b * 2 ^ (s + 1) = Nat.bit false (b * 2 ^ s) := by
      simp [Nat.bit_val, h2s]
      ring
    rcases (by omega : r = 0 ∨ r = 1) with h | h <;> subst h
    · have hA : 2 * q + 0 = Nat.bit false q := by simp [Nat.bit_val]
      rw [hA, hbB, Nat.lor_bit, ih q b hq]
      simp [Nat.bit_val, h2s]
      ring
    · have hA : 2 * q + 1 = Nat.bit true q := by simp [Nat.bit_val]
      rw [hA, hbB, Nat.lor_bit, ih q b hq]
      simp [Nat.bit_val, h2s]
      ring

/-- `ReadUvarint` undoes `PutUvarint`, leaving the remaining stream intact:
the accumulator invariant of the decoding loop. -/
theorem readUvarintAux_put : ∀ (F x acc s : Nat) (rest : List Nat),
    0 < F → x < 2 ^ (7 * F - 6) → acc < 2 ^ s → x * 2 ^ s < 2 ^ 64 →
    readUvarintAux F acc s (putUvarint x ++ rest) =
      (none, acc + x * 2 ^ s, rest) := by
  intro F
  induction F with
  | zero => omega
  | succ F ih =>
    intro x acc s rest _ hx hacc hshift
    unfold putUvarint
    split
    · -- final byte: x < 128
      rename_i hlt
      simp only [List.cons_append, List.nil_append, readUvarintAux]
      have hxb : x <<< s = x * 2 ^ s := Nat.shiftLeft_eq x s
      rw [if_pos hlt]
      have hnof : ¬(F = 0 ∧ 1 < x) := by
        rintro ⟨hF, hx1⟩
        subst hF
        simp at hx
        omega
      rw [if_neg hnof, hxb, Nat.mod_eq_of_lt hshift, lor_disjoint s acc x hacc]
      simp
    · -- continuation byte
      rename_i hge
      push_neg at hge
      simp only [List.cons_append, readUvarintAux]
      have hb1 : ¬(x % 128 + 128 < 128) := by omega
      rw [if_neg hb1]
      have hbmod : (x % 128 + 128) % 128 = x % 128 := by omega
      have hmods : (x % 128) <<< s = (x % 128) * 2 ^ s := Nat.shiftLeft_eq _ s
      have hmlt : (x % 128) * 2 ^ s < 2 ^ 64 := by
        have : (x % 128) * 2 ^ s ≤ x * 2 ^ s :=
          Nat.mul_le_mul_right _ (Nat.mod_le x 128)
        omega
      rw [hbmod, hmods, Nat.mod_eq_of_lt hmlt, lor_disjoint s acc (x % 128) hacc]
      have hF2 : 2 ≤ F + 1 := by
        by_contra h
        have : F = 0 := by omega
        subst this
        simp at hx
        omega
      have hF0 : 0 < F := by omega
      have hx' : x / 128 < 2 ^ (7 * F - 6) := by
        have h1 : x < 2 ^ (7 * (F + 1) - 6) := hx
        have h2 : 7 * (F + 1) - 6 = (7 * F - 6) + 7 := by omega
        rw [h2] at h1
        apply Nat.div_lt_of_lt_mul
        calc x < 2 ^ (7 * F - 6 + 7) := h1
        _ = 128 * 2 ^ (7 * F - 6) := by rw [pow_add]; ring
      have h7 : (2 : Nat) ^ (s + 7) = 128 * 2 ^ s := by rw [pow_add]; ring
      have hacc' : acc + x % 128 * 2 ^ s < 2 ^ (s + 7) := by
        have h127 : x % 128 ≤ 127 := by omega
        have : x % 128 * 2 ^ s ≤ 127 * 2 ^ s := Nat.mul_le_mul_right _ h127
        rw [h7]
        omega
      have hsh' : x / 128 * 2 ^ (s + 7) < 2 ^ 64 := by
        have he : x / 128 * 2 ^ (s + 7) = x / 128 * 128 * 2 ^ s := by
          rw [h7]; ring
        have hle : x / 128 * 128 ≤ x := by omega
        have : x / 128 * 128 * 2 ^ s ≤ x * 2 ^ s := Nat.mul_le_mul_right _ hle
        omega
      simp only [List.append_eq]
      rw [ih (x / 128) (acc + x % 128 * 2 ^ s) (s + 7) rest hF0 hx' hacc' hsh']
      congr 2
      have hmd : x % 128 + 128 * (x / 128) = x := Nat.mod_add_div x 128
      have he2 : x % 128 * 2 ^ s + x / 128 * 2 ^ (s + 7) =
          (x % 128 + 128 * (x / 128)) * 2 ^ s := by
        rw [h7]; ring
      rw [Nat.add_assoc, he2, hmd]

/-- Unsigned varint round trip for every value that fits in 64 bits. -/
theorem readUvarint_put (x : Nat) (rest : List Nat) (hx : x < 2 ^ 64) :
    readUvarint (putUvarint x ++ rest) = (none, x, rest) := by
  have := readUvarintAux_put 10 x 0 0 rest (by norm_num)
    (by norm_num; omega) (by norm_num) (by simpa using hx)
  simpa [readUvarint] using this

theorem zigzag_lt (n : Int) (h1 : -(2 ^ 63) ≤ n) (h2 : n < 2 ^ 63) :
    zigzag n < 2 ^ 64 := by
  unfold zigzag
  split <;> omega

theorem unzigzag_zigzag (n : Int) : unzigzag (zigzag n) = n := by
  unfold unzigzag zigzag
  split
  · rename_i h
    have h0 : (2 * n).toNat = 2 * n.toNat := by omega
    rw [h0]
    simp [Nat.mul_div_cancel_left _ (by norm_num : 0 < 2)]
    omega
  · rename_i h
    push_neg at h
    have h0 : (-2 * n - 1).toNat % 2 = 1 := by omega
    rw [if_neg (by omega)]
    omega

/-- Signed (zig-zag) varint round trip for every `int64` value. -/
theorem readVarint_put (n : Int) (rest : List Nat)
    (h1 : -(2 ^ 63) ≤ n) (h2 : n < 2 ^ 63) :
    readVarint (putVarint n ++ rest) = (none, n, rest) := by
  unfold readVarint putVarint
  rw [readUvarint_put _ _ (zigzag_lt n h1 h2)]
  simp [unzigzag_zigzag]

/-- Little-endian fixed-width round trip. -/
theorem readLEBytes_toLE : ∀ (k n : Nat) (rest : List Nat), n < 2 ^ (8 * k) →
    readLEBytes k (toLEBytes k n ++ rest) = (none, n, rest) := by
  intro k
  induction k with
  | zero =>
    intro n rest hn
    simp at hn
    subst hn
    simp [toLEBytes, readLEBytes]
  | succ k ih =>
    intro n rest hn
    have hdiv : n / 256 < 2 ^ (8 * k) := by
      apply Nat.div_lt_of_lt_mul
      calc n < 2 ^ (8 * (k + 1)) := hn
      _ = 256 * 2 ^ (8 * k) := by rw [show 8 * (k + 1) = 8 + 8 * k by omega, pow_add]; norm_num
    simp only [toLEBytes, List.cons_append, readLEBytes, List.append_eq]
    rw [ih (n / 256) rest hdiv]
    simp only [Prod.mk.injEq]
    refine ⟨trivial, by omega, trivial⟩

/-! ## The Go value and type model

A `GoVal` is the runtime shape of a Go value as `reflect` exposes it to
the package.  Integer values carry their bit width; float and complex
values are represented by the bit pattern after the promotion that
`v.Float()` / `v.Complex()` perform (the promotion of a 32-bit value to 64
bits is exact and injective, so nothing is lost).  A slice or map carries
a nil flag next to its elements, because Go distinguishes a nil slice/map
from an empty one.  A map carries its entries in the iteration order of
the call being modelled; Go fixes no order, so two calls on one map value
are modelled by two pair lists that are permutations of each other. -/

inductive GoVal where
  | bool (b : Bool)
  | int (w : Nat) (n : Int)
  | uint (w : Nat) (n : Nat)
  | float (w : Nat) (bits : Nat)
  | complex (w : Nat) (re im : Nat)
  | str (bytes : List Nat)
  | array (elems : List GoVal)
  | slice (isNil : Bool) (elems : List GoVal)
  | map (isNil : Bool) (pairs : List (GoVal × GoVal))
  | strukt (fields : List (String × GoVal))
  | ptr (p : Option GoVal)
  | chan
  | fn
  | rawPtr

/-- The static Go type of a read destination; it drives `ReadReflect`. -/
inductive GoType where
  | bool
  | int (w : Nat)
  | uint (w : Nat)
  | float (w : Nat)
  | complex (w : Nat)
  | str
  | array (n : Nat) (t : GoType)
  | slice (t : GoType)
  | map (key val : GoType)
  | strukt (fields : List (String × GoType))
  | ptr (t : GoType)
  | chan
  | fn
  | rawPtr

mutual

/-- Boolean structural equality on values (Go `==` on comparable values is
structural, and `reflect.DeepEqual` on the fully supported shapes agrees
with structural equality except for NaN patterns, handled separately). -/
def valBeq : GoVal → GoVal → Bool
  | .bool a, .bool b => a == b
  | .int w n, .int w2 n2 => w == w2 && n == n2
  | .uint w n, .uint w2 n2 => w == w2 && n == n2
  | .float w b, .float w2 b2 => w == w2 && b == b2
  | .complex w r i, .complex w2 r2 i2 => w == w2 && r == r2 && i == i2
  | .str a, .str b => a == b
  | .array a, .array b => valListBeq a b
  | .slice n a, .slice n2 b => n == n2 && valListBeq a b
  | .map n a, .map n2 b => n == n2 && valPairsBeq a b
  | .strukt a, .strukt b => valFieldsBeq a b
  | .ptr none, .ptr none => true
  | .ptr (some a), .ptr (some b) => valBeq a b
  | .chan, .chan => true
  | .fn, .fn => true
  | .rawPtr, .rawPtr => true
  | _, _ => false

def valListBeq : List GoVal → List GoVal → Bool
  | [], [] => true
  | a :: as, b :: bs => valBeq a b && valListBeq as bs
  | _, _ => false

def valPairsBeq : List (GoVal × GoVal) → List (GoVal × GoVal) → Bool
  | [], [] => true
  | (k, v) :: as, (k2, v2) :: bs => valBeq k k2 && valBeq v v2 && valPairsBeq as bs
  | _, _ => false

def valFieldsBeq : List (String × GoVal) → List (String × GoVal) → Bool
  | [], [] => true
  | (n, v) :: as, (n2, v2) :: bs => n == n2 && valBeq v v2 && valFieldsBeq as bs
  | _, _ => false

end

mutual

theorem valBeq_iff : ∀ (a b : GoVal), valBeq a b = true ↔ a = b := by
  intro a b
  cases a <;> cases b <;> (try simp only [valBeq, Bool.and_eq_true, beq_iff_eq]) <;>
    try (simp; done)
  · -- complex: regroup the conjunction
    simp
    tauto
  · -- array
    rw [valListBeq_iff]
    simp
  · -- slice
    rw [valListBeq_iff]
    simp
  · -- map
    rw [valPairsBeq_iff]
    simp
  · -- strukt
    rw [valFieldsBeq_iff]
    simp
  · -- ptr
    rename_i p q
    cases p <;> cases q <;> simp only [valBeq] <;> try (simp; done)
    rw [valBeq_iff]
    simp

theorem valListBeq_iff : ∀ (a b : List GoVal), valListBeq a b = true ↔ a = b := by
  intro a b
  cases a <;> cases b <;> simp only [valListBeq] <;> try (simp; done)
  simp only [Bool.and_eq_true]
  rw [valBeq_iff, valListBeq_iff]
  simp

theorem valPairsBeq_iff : ∀ (a b : List (GoVal × GoVal)),
    valPairsBeq a b = true ↔ a = b := by
  intro a b
  cases a <;> cases b <;> try (simp [valPairsBeq]; done)
  rename_i p as q bs
  obtain ⟨k, v⟩ := p
  obtain ⟨k2, v2⟩ := q
  simp only [valPairsBeq, Bool.and_eq_true]
  rw [valBeq_iff, valBeq_iff, valPairsBeq_iff]
  simp
  try tauto

theorem valFieldsBeq_iff : ∀ (a b : List (String × GoVal)),
    valFieldsBeq a b = true ↔ a = b := by
  intro a b
  cases a <;> cases b <;> try (simp [valFieldsBeq]; done)
  rename_i p as q bs
  obtain ⟨n, v⟩ := p
  obtain ⟨n2, v2⟩ := q
  simp only [valFieldsBeq, Bool.and_eq_true, beq_iff_eq]
  rw [valBeq_iff, valFieldsBeq_iff]
  simp
  try tauto

end

instance : DecidableEq GoVal := fun a b =>
  decidable_of_iff (valBeq a b = true) (valBeq_iff a b)

mutual

/-- Structural size of a type, the termination measure of the readers. -/
def tsize : GoType → Nat
  | .bool => 1
  | .int _ => 1
  | .uint _ => 1
  | .float _ => 1
  | .complex _ => 1
  | .str => 1
  | .chan => 1
  | .fn => 1
  | .rawPtr => 1
  | .array _ t => tsize t + 1
  | .slice t => tsize t + 1
  | .map k v => tsize k + tsize v + 1
  | .strukt fts => ftsize fts + 1
  | .ptr t => tsize t + 1

def ftsize : List (String × GoType) → Nat
  | [] => 1
  | (_, t) :: tl => tsize t + ftsize tl + 1

end

theorem one_le_tsize (t : GoType) : 1 ≤ tsize t := by
  cases t <;> simp [tsize]

theorem one_le_ftsize (fts : List (String × GoType)) : 1 ≤ ftsize fts := by
  cases fts with
  | nil => simp [ftsize]
  | cons f tl =>
    obtain ⟨nm, t⟩ := f
    simp [ftsize]

/-- The field filter of `WriteStructReflect` / `ReadStructReflect`: a field
is skipped when its name is the placeholder `"_"`, or when lower-casing
its name does not change the first byte — for ASCII identifiers exactly
when the first character is not an upper-case letter, i.e. the field is
unexported. -/
def skipName (s : String) : Bool :=
  s = "_" ||
    (match s.data with
     | [] => true
     | c :: _ => !(decide ('A' ≤ c) && decide (c ≤ 'Z')))

mutual

/-- The zero value of a type, as `reflect.New` produces it. -/
def zeroVal : GoType → GoVal
  | .bool => .bool false
  | .int w => .int w 0
  | .uint w => .uint w 0
  | .float w => .float w 0
  | .complex w => .complex w 0 0
  | .str => .str []
  | .array n t => .array (List.replicate n (zeroVal t))
  | .slice _ => .slice true []
  | .map _ _ => .map true []
  | .strukt fts => .strukt (zeroFields fts)
  | .ptr _ => .ptr none
  | .chan => .chan
  | .fn => .fn
  | .rawPtr => .rawPtr

def zeroFields : List (String × GoType) → List (String × GoVal)
  | [] => []
  | (nm, t) :: tl => (nm, zeroVal t) :: zeroFields tl

end

/-- `reflect.Value.SetMapIndex`: replace the entry of an existing key,
otherwise add the pair. -/
def setMapIndex : List (GoVal × GoVal) → GoVal → GoVal → List (GoVal × GoVal)
  | [], k, v => [(k, v)]
  | (k0, v0) :: tl, k, v =>
    if k0 = k then (k, v) :: tl else (k0, v0) :: setMapIndex tl k v

/-- `reflect.Value.SetInt` stores the low `w` bits of its 64-bit argument:
the value wrapped to the destination width in two's complement. -/
def wrapSigned (w : Nat) (n : Int) : Int :=
  (n + 2 ^ (w - 1)) % 2 ^ w - 2 ^ (w - 1)

theorem wrapSigned_eq_self (w : Nat) (n : Int) (hw : 1 ≤ w)
    (h1 : -(2 ^ (w - 1)) ≤ n) (h2 : n < 2 ^ (w - 1)) :
    wrapSigned w n = n := by
  unfold wrapSigned
  have hsplit : (2 : Int) ^ w = 2 ^ (w - 1) * 2 := by
    rw [← pow_succ]
    congr 1
    omega
  have hpos : (0 : Int) < 2 ^ (w - 1) := by positivity
  rw [Int.emod_eq_of_lt (by omega) (by omega)]
  omega

/-! ## The writer: `Write` / `WriteReflect` and the per-kind writers -/

mutual

/-- `WriteReflect` (and `Write`, which only strips one pointer level that
`WriteReflect` strips anyway): dereference pointers to the value; a nil
pointer writes varint zero (`WriteNumber(w, 0)`); otherwise dispatch on
the kind, falling through to `WriteNumberReflect` whose default arm
rejects unsupported kinds.  Errors abort the traversal; the bytes of a
failed write are not observed by any claim, so only the error is kept. -/
def writeVal : GoVal → Except Err (List Nat)
  | .ptr none => .ok (putVarint 0)
  | .ptr (some v) => writeVal v
  | .bool b => .ok [if b then 1 else 0]
  | .int _ n => .ok (putVarint n)
  | .uint _ n => .ok (putUvarint n)
  | .float _ bits => .ok (le64 bits)
  | .complex _ re im => .ok (le64 re ++ le64 im)
  | .str bytes => .ok (putVarint bytes.length ++ bytes)
  | .array elems => writeList elems
  | .slice _ elems =>
    match writeList elems with
    | .error e => .error e
    | .ok bs => .ok (putVarint elems.length ++ bs)
  | .map _ pairs =>
    match writePairs pairs with
    | .error e => .error e
    | .ok bs => .ok (putVarint pairs.length ++ bs)
  | .strukt fields => writeFields fields
  | .chan => .error .unsupportedValue
  | .fn => .error .unsupportedValue
  | .rawPtr => .error .unsupportedValue

/-- `WriteArrayReflect` / the element loop of `WriteSliceReflect`. -/
def writeList : List GoVal → Except Err (List Nat)
  | [] => .ok []
  | v :: tl =>
    match writeVal v with
    | .error e => .error e
    | .ok bs =>
      match writeList tl with
      | .error e => .error e
      | .ok bs2 => .ok (bs ++ bs2)

/-- The key/value loop of `WriteMapReflect`. -/
def writePairs : List (GoVal × GoVal) → Except Err (List Nat)
  | [] => .ok []
  | (k, v) :: tl =>
    match writeVal k with
    | .error e => .error e
    | .ok bk =>
      match writeVal v with
      | .error e => .error e
      | .ok bv =>
        match writePairs tl with
        | .error e => .error e
        | .ok btl => .ok (bk ++ bv ++ btl)

/-- The field loop of `WriteStructReflect`, with its skip filter. -/
def writeFields : List (String × GoVal) → Except Err (List Nat)
  | [] => .ok []
  | (nm, v) :: tl =>
    if skipName nm then writeFields tl
    else
      match writeVal v with
      | .error e => .error e
      | .ok bs =>
        match writeFields tl with
        | .error e => .error e
        | .ok bs2 => .ok (bs ++ bs2)

end

/-! ## The reader: `Read` / `ReadReflect` and the per-kind readers -/

/-- The result of a read: the error (if any), the value now held by the
destination, and the remaining stream.  Because the Go readers work in
place, the destination value is meaningful even when an error is
reported. -/
structure RRes where
  err : Option Err
  val : GoVal
  rest : List Nat
deriving DecidableEq

mutual

/-- `ReadReflect` (and `Read`, which strips the caller's pointer): the
destination must be addressable (always true here, the model destination
is a variable); allocate a fresh zero value (`reflect.New`), for a pointer
destination allocate the pointee and recurse, otherwise dispatch the
per-kind readers on the temporary; only on success is the temporary
stored in the destination, so a failed read leaves the destination as it
was. -/
def readVal (t : GoType) (old : GoVal) (bs : List Nat) : RRes :=
  match t with
  | .ptr t1 =>
    match readVal t1 (zeroVal t1) bs with
    | ⟨none, v, rest⟩ => ⟨none, .ptr (some v), rest⟩
    | ⟨some e, _, rest⟩ => ⟨some e, old, rest⟩
  | t0 =>
    match readIP t0 (zeroVal t0) bs with
    | ⟨none, v, rest⟩ => ⟨none, v, rest⟩
    | ⟨some e, _, rest⟩ => ⟨some e, old, rest⟩

termination_by (tsize t, 1)
decreasing_by
  all_goals simp_wf
  all_goals
    first
    | (apply Prod.Lex.right
       try simp only [List.length_cons]
       omega)
    | (apply Prod.Lex.left
       try simp only [tsize, ftsize]
       omega)


/-- The per-kind readers, dispatched on the destination kind, each reading
in place into `old` exactly as `ReadBoolReflect`, `ReadNumberReflect`,
`ReadStringReflect`, `ReadArrayReflect`, `ReadSliceReflect`,
`ReadMapReflect` and `ReadStructReflect` do; kinds with no reader fall to
`ReadNumberReflect`, whose default arm reports `ErrUnsupportedValue`. -/
def readIP (t : GoType) (old : GoVal) (bs : List Nat) : RRes :=
  match t with
  | .bool =>
    -- ReadBoolReflect: one byte; 0 is false, 1 is true, anything else is
    -- ErrUnexpected.
    match bs with
    | [] => ⟨some .eof, old, []⟩
    | b :: rest =>
      if b = 0 then ⟨none, .bool false, rest⟩
      else if b = 1 then ⟨none, .bool true, rest⟩
      else ⟨some .unexpectedValue, old, rest⟩
  | .int w =>
    -- ReadNumberReflect, signed: ReadVarint then SetInt (truncating).
    match readVarint bs with
    | (some e, _, rest) => ⟨some e, old, rest⟩
    | (none, n, rest) => ⟨none, .int w (wrapSigned w n), rest⟩
  | .uint w =>
    match readUvarint bs with
    | (some e, _, rest) => ⟨some e, old, rest⟩
    | (none, n, rest) => ⟨none, .uint w (n % 2 ^ w), rest⟩
  | .float w =>
    -- 8 bytes, little-endian, the 64-bit pattern; SetFloat narrows to the
    -- destination width (invisible on the promoted representation).
    match readLEBytes 8 bs with
    | (some e, _, rest) => ⟨some e, old, rest⟩
    | (none, bits, rest) => ⟨none, .float w bits, rest⟩
  | .complex w =>
    match readLEBytes 8 bs with
    | (some e, _, rest) => ⟨some e, old, rest⟩
    | (none, re, rest) =>
      match readLEBytes 8 rest with
      | (some e, _, rest1) => ⟨some e, old, rest1⟩
      | (none, im, rest1) => ⟨none, .complex w re im, rest1⟩
  | .str =>
    -- ReadStringReflect: signed length, negative rejected, zero produces
    -- the empty string; otherwise a single r.Read(buf) call whose count
    -- is ignored, so on a non-empty stream the available bytes are taken
    -- and any shortfall stays zero in the buffer.
    match readVarint bs with
    | (some e, _, rest) => ⟨some e, old, rest⟩
    | (none, l, rest) =>
      if l < 0 then ⟨some .unexpectedValue, old, rest⟩
      else if l = 0 then ⟨none, .str [], rest⟩
      else
        match rest with
        | [] => ⟨some .eof, old, []⟩
        | _ :: _ =>
          ⟨none,
           .str (rest.take (min l.toNat rest.length) ++
             List.replicate (l.toNat - min l.toNat rest.length) 0),
           rest.drop (min l.toNat rest.length)⟩
  | .array n t1 =>
    -- ReadArrayReflect: element by element, in place, no prefix.
    match old with
    | .array es =>
      match readElems t1 es bs with
      | (e, es1, rest) => ⟨e, .array es1, rest⟩
    | _ =>
      -- unreachable for a well-typed destination
      match readElems t1 (List.replicate n (zeroVal t1)) bs with
      | (e, es1, rest) => ⟨e, .array es1, rest⟩
  | .slice t1 =>
    -- ReadSliceReflect: signed count, negative rejected, then the
    -- destination is replaced by a fresh zeroed slice of that length and
    -- filled element by element.
    match readVarint bs with
    | (some e, _, rest) => ⟨some e, old, rest⟩
    | (none, l, rest) =>
      if l < 0 then ⟨some .unexpectedValue, old, rest⟩
      else
        match readElems t1 (List.replicate l.toNat (zeroVal t1)) rest with
        | (e, es1, rest1) => ⟨e, .slice false es1, rest1⟩
  | .map kt vt =>
    -- ReadMapReflect: signed count, negative rejected, fresh empty map,
    -- then pairs read into fresh zero temporaries and inserted.
    match readVarint bs with
    | (some e, _, rest) => ⟨some e, old, rest⟩
    | (none, l, rest) =>
      if l < 0 then ⟨some .unexpectedValue, old, rest⟩
      else
        match readPairs kt vt l.toNat [] rest with
        | (e, ps, rest1) => ⟨e, .map false ps, rest1⟩
  | .strukt fts =>
    -- ReadStructReflect: fields in declaration order, skipping the
    -- placeholder and unexported names, reading the rest in place.
    match old with
    | .strukt fs =>
      match readFields fts fs bs with
      | (e, fs1, rest) => ⟨e, .strukt fs1, rest⟩
    | _ =>
      match readFields fts (zeroFields fts) bs with
      | (e, fs1, rest) => ⟨e, .strukt fs1, rest⟩
  | .ptr _ =>
    -- unreachable: ReadReflect resolves pointers before dispatching; the
    -- dispatch default would be ReadNumberReflect, which rejects it
    ⟨some .unsupportedValue, old, bs⟩
  | .chan => ⟨some .unsupportedValue, old, bs⟩
  | .fn => ⟨some .unsupportedValue, old, bs⟩
  | .rawPtr => ⟨some .unsupportedValue, old, bs⟩

termination_by (tsize t, 0)
decreasing_by
  all_goals simp_wf
  all_goals
    first
    | (apply Prod.Lex.right
       try simp only [List.length_cons]
       omega)
    | (apply Prod.Lex.left
       try simp only [tsize, ftsize]
       omega)


/-- The element loop of `ReadArrayReflect` / `ReadSliceReflect`: each
element is read through `ReadReflect`, stopping at the first error with
the elements read so far in place. -/
def readElems (t : GoType) (olds : List GoVal) (bs : List Nat) :
    Option Err × List GoVal × List Nat :=
  match olds with
  | [] => (none, [], bs)
  | o :: tl =>
    match readVal t o bs with
    | ⟨some e, v, rest⟩ => (some e, v :: tl, rest)
    | ⟨none, v, rest⟩ =>
      match readElems t tl rest with
      | (e, vs, rest1) => (e, v :: vs, rest1)

termination_by (tsize t, 2 + olds.length)
decreasing_by
  all_goals simp_wf
  all_goals
    first
    | (apply Prod.Lex.right
       try simp only [List.length_cons]
       omega)
    | (apply Prod.Lex.left
       try simp only [tsize, ftsize]
       omega)


/-- The pair loop of `ReadMapReflect`: key and value are read into fresh
zero values and inserted with `SetMapIndex`. -/
def readPairs (kt vt : GoType) (n : Nat) (acc : List (GoVal × GoVal))
    (bs : List Nat) : Option Err × List (GoVal × GoVal) × List Nat :=
  match n with
  | 0 => (none, acc, bs)
  | n1 + 1 =>
    match readVal kt (zeroVal kt) bs with
    | ⟨some e, _, rest⟩ => (some e, acc, rest)
    | ⟨none, k, rest⟩ =>
      match readVal vt (zeroVal vt) rest with
      | ⟨some e, _, rest1⟩ => (some e, acc, rest1)
      | ⟨none, v, rest1⟩ => readPairs kt vt n1 (setMapIndex acc k v) rest1

termination_by (tsize kt + tsize vt, 2 + n)
decreasing_by
  all_goals simp_wf
  all_goals
    first
    | (apply Prod.Lex.right
       try simp only [List.length_cons]
       omega)
    | (apply Prod.Lex.left
       try simp only [tsize, ftsize]
       first
       | omega
       | (have hk := one_le_tsize kt
          have hv := one_le_tsize vt
          omega))


/-- The field loop of `ReadStructReflect`: skipped fields keep their
current value, the rest are read through `ReadReflect` in declaration
order. -/
def readFields (fts : List (String × GoType)) (olds : List (String × GoVal))
    (bs : List Nat) : Option Err × List (String × GoVal) × List Nat :=
  match fts, olds with
  | [], rest0 => (none, rest0, bs)
  | _ :: _, [] => (none, [], bs)
  | (nm, t) :: fts1, (nm0, ov) :: olds1 =>
    if skipName nm then
      match readFields fts1 olds1 bs with
      | (e, fs, rest) => (e, (nm0, ov) :: fs, rest)
    else
      match readVal t ov bs with
      | ⟨some e, v, rest⟩ => (some e, (nm0, v) :: olds1, rest)
      | ⟨none, v, rest⟩ =>
        match readFields fts1 olds1 rest with
        | (e, fs, rest1) => (e, (nm0, v) :: fs, rest1)

termination_by (ftsize fts, 0)
decreasing_by
  all_goals simp_wf
  all_goals
    first
    | (apply Prod.Lex.right
       try simp only [List.length_cons]
       omega)
    | (apply Prod.Lex.left
       try simp only [tsize, ftsize]
       omega)


end

/-! ## Well-formed values

`wf t v` says that `v` is a value a Go program can actually hold at static
type `t`: widths are the Go widths, integers are in range for their width,
float/complex bit patterns fit 64 bits, nil containers are empty,
container lengths fit a 64-bit `int`, map keys are distinct and of a
comparable kind whose Go `==` is structural (bool, integers, text, arrays
and structs of such; float, complex, pointer and channel keys are outside
the model because Go compares them by NaN-sensitive `==` or by identity),
and struct fields line up with the struct type. -/

mutual

/-- Key types on which Go map-key equality agrees with structural
equality. -/
def comparableKey : GoType → Bool
  | .bool => true
  | .int _ => true
  | .uint _ => true
  | .str => true
  | .array _ t => comparableKey t
  | .strukt fts => comparableFields fts
  | _ => false

/-- `comparableKey` over a struct key type's fields. -/
def comparableFields : List (String × GoType) → Bool
  | [] => true
  | (_, t) :: tl => comparableKey t && comparableFields tl

end

mutual

def wf : GoType → GoVal → Prop
  | .bool, .bool _ => True
  | .int w, .int w2 n =>
    w2 = w ∧ (w = 8 ∨ w = 16 ∨ w = 32 ∨ w = 64) ∧
      -(2 ^ (w - 1) : Int) ≤ n ∧ n < 2 ^ (w - 1)
  | .uint w, .uint w2 n =>
    w2 = w ∧ (w = 8 ∨ w = 16 ∨ w = 32 ∨ w = 64) ∧ n < 2 ^ w
  | .float w, .float w2 bits => w2 = w ∧ (w = 32 ∨ w = 64) ∧ bits < 2 ^ 64
  | .complex w, .complex w2 re im =>
    w2 = w ∧ (w = 64 ∨ w = 128) ∧ re < 2 ^ 64 ∧ im < 2 ^ 64
  | .str, .str bytes => bytes.length < 2 ^ 63 ∧ ∀ b ∈ bytes, b < 256
  | .array n t, .array es => es.length = n ∧ wfList t es
  | .slice t, .slice isNil es =>
    (isNil = true → es = []) ∧ es.length < 2 ^ 63 ∧ wfList t es
  | .map kt vt, .map isNil ps =>
    (isNil = true → ps = []) ∧ ps.length < 2 ^ 63 ∧ comparableKey kt = true ∧
      (ps.map Prod.fst).Nodup ∧ wfPairs kt vt ps
  | .strukt fts, .strukt fs => wfFields fts fs
  | .ptr _, .ptr none => True
  | .ptr t, .ptr (some v) => wf t v
  | .chan, .chan => True
  | .fn, .fn => True
  | .rawPtr, .rawPtr => True
  | _, _ => False

def wfList : GoType → List GoVal → Prop
  | _, [] => True
  | t, v :: tl => wf t v ∧ wfList t tl

def wfPairs : GoType → GoType → List (GoVal × GoVal) → Prop
  | _, _, [] => True
  | kt, vt, (k, v) :: tl => wf kt k ∧ wf vt v ∧ wfPairs kt vt tl

def wfFields : List (String × GoType) → List (String × GoVal) → Prop
  | [], [] => True
  | (nm, t) :: fts, (nm2, v) :: fs => nm2 = nm ∧ wf t v ∧ wfFields fts fs
  | _, _ => False

end

/-- The NaN patterns of a 64-bit float: exponent all ones, mantissa
nonzero.  `reflect.DeepEqual` uses `==` on floats, so NaN is never deeply
equal to anything, including itself. -/
def isNaN64 (bits : Nat) : Prop :=
  bits / 2 ^ 52 % 2 ^ 11 = 2047 ∧ bits % 2 ^ 52 ≠ 0

mutual

/-- The conditions under which a decode of the written bytes rebuilds the
value on the nose: nothing in the value is a nil slice/map or nil pointer
(decode always allocates), no float/complex component is NaN (`DeepEqual`
would reject it even when the bits match), skipped struct fields hold
their zero values (decode leaves the freshly allocated zero there), and
no unsupported kind occurs. -/
def clean : GoType → GoVal → Prop
  | .bool, _ => True
  | .int _, _ => True
  | .uint _, _ => True
  | .float _, .float _ bits => ¬isNaN64 bits
  | .complex _, .complex _ re im => ¬isNaN64 re ∧ ¬isNaN64 im
  | .str, _ => True
  | .array _ t, .array es => cleanList t es
  | .slice t, .slice isNil es => isNil = false ∧ cleanList t es
  | .map kt vt, .map isNil ps => isNil = false ∧ cleanPairs kt vt ps
  | .strukt fts, .strukt fs => cleanFields fts fs
  | .ptr _, .ptr none => False
  | .ptr t, .ptr (some v) => clean t v
  | .chan, _ => False
  | .fn, _ => False
  | .rawPtr, _ => False
  | _, _ => True

def cleanList : GoType → List GoVal → Prop
  | _, [] => True
  | t, v :: tl => clean t v ∧ cleanList t tl

def cleanPairs : GoType → GoType → List (GoVal × GoVal) → Prop
  | _, _, [] => True
  | kt, vt, (k, v) :: tl => clean kt k ∧ clean vt v ∧ cleanPairs kt vt tl

def cleanFields : List (String × GoType) → List (String × GoVal) → Prop
  | [], _ => True
  | _ :: _, [] => True
  | (nm, t) :: fts, (_, v) :: fs =>
    (if skipName nm then v = zeroVal t else clean t v) ∧ cleanFields fts fs

end

/-- The relation between the struct-typed fields `fs` being rebuilt and
the destination fields `olds` that makes the rebuild exact: names agree
and every skipped position of `olds` already holds the value of `fs`. -/
def agreeSkip : List (String × GoType) → List (String × GoVal) →
    List (String × GoVal) → Prop
  | [], [], [] => True
  | (nm, _) :: fts, (nm1, v) :: fs, (nm2, ov) :: olds =>
    nm2 = nm1 ∧ (skipName nm = true → ov = v) ∧ agreeSkip fts fs olds
  | _, _, _ => False

/-- A nil pointer value of any nesting depth: `nil`, a pointer to `nil`,
and so on. -/
inductive NilChain : GoVal → Prop where
  | base : NilChain (.ptr none)
  | step {v : GoVal} : NilChain v → NilChain (.ptr (some v))

mutual

/-- No map occurs anywhere in the value. -/
def mapFree : GoVal → Bool
  | .map _ _ => false
  | .array es => mapFreeList es
  | .slice _ es => mapFreeList es
  | .strukt fs => mapFreeFields fs
  | .ptr (some v) => mapFree v
  | _ => true

def mapFreeList : List GoVal → Bool
  | [] => true
  | v :: tl => mapFree v && mapFreeList tl

def mapFreeFields : List (String × GoVal) → Bool
  | [] => true
  | (_, v) :: tl => mapFree v && mapFreeFields tl

end

mutual

/-- Two `GoVal`s represent the same Go value across two calls: equal
except that each map's pair list may appear in a different iteration
order (Go fixes no order). -/
inductive EquivVal : GoVal → GoVal → Prop where
  | bool (b : Bool) : EquivVal (.bool b) (.bool b)
  | int (w : Nat) (n : Int) : EquivVal (.int w n) (.int w n)
  | uint (w n : Nat) : EquivVal (.uint w n) (.uint w n)
  | float (w bits : Nat) : EquivVal (.float w bits) (.float w bits)
  | complex (w re im : Nat) : EquivVal (.complex w re im) (.complex w re im)
  | str (bytes : List Nat) : EquivVal (.str bytes) (.str bytes)
  | array {es fs : List GoVal} : EquivList es fs →
      EquivVal (.array es) (.array fs)
  | slice (b : Bool) {es fs : List GoVal} : EquivList es fs →
      EquivVal (.slice b es) (.slice b fs)
  | map (b : Bool) {ps qs rs : List (GoVal × GoVal)} : EquivPairs ps qs →
      List.Perm qs rs → EquivVal (.map b ps) (.map b rs)
  | strukt {fs gs : List (String × GoVal)} : EquivFields fs gs →
      EquivVal (.strukt fs) (.strukt gs)
  | ptrNone : EquivVal (.ptr none) (.ptr none)
  | ptrSome {v w : GoVal} : EquivVal v w →
      EquivVal (.ptr (some v)) (.ptr (some w))
  | chan : EquivVal .chan .chan
  | fn : EquivVal .fn .fn
  | rawPtr : EquivVal .rawPtr .rawPtr

inductive EquivList : List GoVal → List GoVal → Prop where
  | nil : EquivList [] []
  | cons {v w : GoVal} {tl tl2 : List GoVal} : EquivVal v w →
      EquivList tl tl2 → EquivList (v :: tl) (w :: tl2)

inductive EquivPairs : List (GoVal × GoVal) → List (GoVal × GoVal) → Prop where
  | nil : EquivPairs [] []
  | cons {k k2 v v2 : GoVal} {tl tl2 : List (GoVal × GoVal)} :
      EquivVal k k2 → EquivVal v v2 → EquivPairs tl tl2 →
      EquivPairs ((k, v) :: tl) ((k2, v2) :: tl2)

inductive EquivFields : List (String × GoVal) → List (String × GoVal) → Prop where
  | nil : EquivFields [] []
  | cons (nm : String) {v w : GoVal} {tl tl2 : List (String × GoVal)} :
      EquivVal v w → EquivFields tl tl2 →
      EquivFields ((nm, v) :: tl) ((nm, w) :: tl2)

end

/-- Two field lists agree on every retained (written) field: names match
everywhere and values match wherever the field is not skipped.  Skipped
fields may hold arbitrary, different values. -/
def eqOnRetained : List (String × GoVal) → List (String × GoVal) → Prop
  | [], [] => True
  | (nm, v) :: tl, (nm2, v2) :: tl2 =>
    nm2 = nm ∧ (skipName nm = false → v2 = v) ∧ eqOnRetained tl tl2
  | _, _ => False

/-- The decoded field list keeps the destination value at every skipped
position. -/
def skippedKept : List (String × GoType) → List (String × GoVal) →
    List (String × GoVal) → Prop
  | [], olds, res => res = olds
  | _ :: _, [], res => res = []
  | (nm, _) :: fts, (nm0, ov) :: olds, res =>
    match res with
    | [] => False
    | (nm0r, rv) :: res1 =>
      nm0r = nm0 ∧ (skipName nm = true → rv = ov) ∧ skippedKept fts olds res1

theorem setMapIndex_append (acc : List (GoVal × GoVal)) (k v : GoVal)
    (h : ∀ q ∈ acc, q.1 ≠ k) : setMapIndex acc k v = acc ++ [(k, v)] := by
  induction acc with
  | nil => simp [setMapIndex]
  | cons q tl ih =>
    obtain ⟨k0, v0⟩ := q
    have hne : k0 ≠ k := h (k0, v0) (by simp)
    simp [setMapIndex, hne]
    exact ih fun q hq => h q (by simp [hq])

theorem agreeSkip_zero : ∀ (fts : List (String × GoType))
    (fs : List (String × GoVal)), wfFields fts fs → cleanFields fts fs →
    agreeSkip fts fs (zeroFields fts) := by
  intro fts
  induction fts with
  | nil =>
    intro fs hwf _
    cases fs with
    | nil => simp [agreeSkip, zeroFields]
    | cons f fs1 => simp [wfFields] at hwf
  | cons f fts1 ih =>
    obtain ⟨nm, t⟩ := f
    intro fs hwf hcl
    cases fs with
    | nil => simp [wfFields] at hwf
    | cons g fs1 =>
      obtain ⟨nm1, v⟩ := g
      simp only [wfFields] at hwf
      simp only [cleanFields] at hcl
      obtain ⟨hnm, hv, hwf1⟩ := hwf
      obtain ⟨hcv, hcl1⟩ := hcl
      simp only [zeroFields, agreeSkip]
      refine ⟨hnm.symm, ?_, ih fs1 hwf1 hcl1⟩
      intro hskip
      rw [hskip] at hcv
      simp at hcv
      exact hcv.symm

/-! ## Round trip: `Read` undoes `Write` -/

theorem width_pow_le (w : Nat) (h : w = 8 ∨ w = 16 ∨ w = 32 ∨ w = 64) :
    (2 : Nat) ^ w ≤ 2 ^ 64 := by
  rcases h with h | h | h | h <;> subst h <;> norm_num

theorem width_one_le (w : Nat) (h : w = 8 ∨ w = 16 ∨ w = 32 ∨ w = 64) :
    1 ≤ w := by
  rcases h with h | h | h | h <;> omega

theorem width_int_range (w : Nat) (h : w = 8 ∨ w = 16 ∨ w = 32 ∨ w = 64)
    (n : Int) (hlo : -(2 ^ (w - 1) : Int) ≤ n) (hhi : n < 2 ^ (w - 1)) :
    -(2 ^ 63 : Int) ≤ n ∧ n < 2 ^ 63 := by
  rcases h with h | h | h | h <;> subst h <;> norm_num at hlo hhi ⊢ <;> omega

set_option maxHeartbeats 1600000 in
mutual

/-- Round trip of a single value: for a well-formed, clean value the
writer succeeds and the reader rebuilds exactly that value from the
written bytes, leaving the rest of the stream untouched, whatever the
prior contents of the destination. -/
theorem rt_val (t : GoType) (v : GoVal) (hwf : wf t v) (hcl : clean t v) :
    ∃ bs, writeVal v = .ok bs ∧
      ∀ (old : GoVal) (rest : List Nat),
        readVal t old (bs ++ rest) = ⟨none, v, rest⟩ :=
  match v, hwf, hcl with
  | .bool b, hwf0, hcl0 => by
    clear hwf hcl
    have hwf := hwf0
    clear hwf0 hcl0
    cases t <;> simp only [wf] at hwf
    refine ⟨[if b then 1 else 0], rfl, fun old rest => ?_⟩
    cases b <;> simp [readVal, readIP, zeroVal]
  | .int w2 n, hwf0, hcl0 => by
    clear hwf hcl
    have hwf := hwf0
    clear hwf0 hcl0
    cases t <;> simp only [wf] at hwf
    obtain ⟨hw2, hwd, hlo, hhi⟩ := hwf
    subst hw2
    obtain ⟨h1, h2⟩ := width_int_range _ hwd n hlo hhi
    refine ⟨putVarint n, rfl, fun old rest => ?_⟩
    simp [readVal, readIP, readVarint_put n (rest) h1 h2,
      wrapSigned_eq_self _ n (width_one_le _ hwd) hlo hhi]
  | .uint w2 n, hwf0, hcl0 => by
    clear hwf hcl
    have hwf := hwf0
    clear hwf0 hcl0
    cases t <;> simp only [wf] at hwf
    obtain ⟨hw2, hwd, hn⟩ := hwf
    subst hw2
    have hn64 : n < 2 ^ 64 := lt_of_lt_of_le hn (width_pow_le _ hwd)
    refine ⟨putUvarint n, rfl, fun old rest => ?_⟩
    simp [readVal, readIP, readUvarint_put n rest hn64, Nat.mod_eq_of_lt hn]
  | .float w2 bits, hwf0, hcl0 => by
    clear hwf hcl
    have hwf := hwf0
    clear hwf0 hcl0
    cases t <;> simp only [wf] at hwf
    obtain ⟨hw2, hwd, hb⟩ := hwf
    subst hw2
    refine ⟨le64 bits, rfl, fun old rest => ?_⟩
    simp [readVal, readIP, le64, readLEBytes_toLE 8 bits rest (by norm_num; omega)]
  | .complex w2 re im, hwf0, hcl0 => by
    clear hwf hcl
    have hwf := hwf0
    clear hwf0 hcl0
    cases t <;> simp only [wf] at hwf
    obtain ⟨hw2, hwd, hre, him⟩ := hwf
    subst hw2
    refine ⟨le64 re ++ le64 im, rfl, fun old rest => ?_⟩
    rw [List.append_assoc]
    simp [readVal, readIP, le64, readLEBytes_toLE 8 re _ (by norm_num; omega),
      readLEBytes_toLE 8 im rest (by norm_num; omega)]
  | .str bytes, hwf0, hcl0 => by
    clear hwf hcl
    have hwf := hwf0
    clear hwf0 hcl0
    cases t <;> simp only [wf] at hwf
    obtain ⟨hlen, hbytes⟩ := hwf
    refine ⟨putVarint bytes.length ++ bytes, rfl, fun old rest => ?_⟩
    rw [List.append_assoc]
    have hr := readVarint_put bytes.length (bytes ++ rest) (by omega) (by omega)
    simp only [readVal, readIP, hr]
    rw [if_neg (by omega)]
    cases bytes with
    | nil => simp
    | cons b tl =>
      rw [if_neg (by simp; omega)]
      simp only [List.cons_append]
      have htn : ((((b :: tl).length : Nat) : Int)).toNat = (b :: tl).length := by
        omega
      have hmin : min (b :: tl).length (b :: tl ++ rest).length =
          (b :: tl).length := by
        simp [List.length_append]
      simp only [htn, List.cons_append] at hmin ⊢
      rw [hmin]
      have ht : ((b :: tl) ++ rest).take (b :: tl).length = b :: tl :=
        List.take_left (b :: tl) rest
      have hd : ((b :: tl) ++ rest).drop (b :: tl).length = rest :=
        List.drop_left (b :: tl) rest
      simp only [List.cons_append] at ht hd
      rw [ht, hd]
      simp
  | .array es, hwf0, hcl0 => by
    clear hwf hcl
    have hwf := hwf0
    have hcl := hcl0
    clear hwf0 hcl0
    cases t <;> simp only [wf] at hwf
    rename_i n t1
    obtain ⟨hlen, hwfl⟩ := hwf
    simp only [clean] at hcl
    obtain ⟨bs, hw, hr⟩ := rt_list t1 es hwfl hcl
    refine ⟨bs, hw, fun old rest => ?_⟩
    have hzl : (List.replicate n (zeroVal t1)).length = es.length := by
      simp [hlen]
    simp [readVal, readIP, zeroVal, hr (List.replicate n (zeroVal t1)) rest hzl]
  | .slice isNil es, hwf0, hcl0 => by
    clear hwf hcl
    have hwf := hwf0
    have hcl := hcl0
    clear hwf0 hcl0
    cases t <;> simp only [wf] at hwf
    rename_i t1
    obtain ⟨hnil, hlen, hwfl⟩ := hwf
    simp only [clean] at hcl
    obtain ⟨hnil2, hcll⟩ := hcl
    subst hnil2
    obtain ⟨bs, hw, hr⟩ := rt_list t1 es hwfl hcll
    refine ⟨putVarint es.length ++ bs, by simp [writeVal, hw], fun old rest => ?_⟩
    rw [List.append_assoc]
    have hvr := readVarint_put es.length (bs ++ rest) (by omega) (by omega)
    have htn : (((es.length : Nat) : Int)).toNat = es.length := by omega
    simp only [readVal, readIP, hvr]
    rw [if_neg (by omega)]
    simp only [htn]
    rw [hr (List.replicate es.length (zeroVal t1)) rest (by simp)]
  | .map isNil ps, hwf0, hcl0 => by
    clear hwf hcl
    have hwf := hwf0
    have hcl := hcl0
    clear hwf0 hcl0
    cases t <;> simp only [wf] at hwf
    rename_i kt vt
    obtain ⟨hnil, hlen, hcmp, hnd, hwfp⟩ := hwf
    simp only [clean] at hcl
    obtain ⟨hnil2, hclp⟩ := hcl
    subst hnil2
    obtain ⟨bs, hw, hr⟩ := rt_pairs kt vt ps hwfp hclp hnd
    refine ⟨putVarint ps.length ++ bs, by simp [writeVal, hw], fun old rest => ?_⟩
    rw [List.append_assoc]
    have hvr := readVarint_put ps.length (bs ++ rest) (by omega) (by omega)
    have htn : (((ps.length : Nat) : Int)).toNat = ps.length := by omega
    simp only [readVal, readIP, hvr]
    rw [if_neg (by omega)]
    simp only [htn]
    rw [hr [] rest (by simp)]
    simp
  | .strukt fs, hwf0, hcl0 => by
    clear hwf hcl
    have hwf := hwf0
    have hcl := hcl0
    clear hwf0 hcl0
    cases t <;> simp only [wf] at hwf
    rename_i fts
    simp only [clean] at hcl
    obtain ⟨bs, hw, hr⟩ := rt_fields fts fs hwf hcl
    refine ⟨bs, hw, fun old rest => ?_⟩
    simp [readVal, readIP, zeroVal,
      hr (zeroFields fts) rest (agreeSkip_zero fts fs hwf hcl)]
  | .ptr none, hwf0, hcl0 => by
    clear hwf hcl
    have hwf := hwf0
    have hcl := hcl0
    clear hwf0 hcl0
    cases t <;> simp only [wf] at hwf <;> simp only [clean] at hcl
  | .ptr (some v1), hwf0, hcl0 => by
    clear hwf hcl
    have hwf := hwf0
    have hcl := hcl0
    clear hwf0 hcl0
    cases t <;> simp only [wf] at hwf
    rename_i t1
    simp only [clean] at hcl
    obtain ⟨bs, hw, hr⟩ := rt_val t1 v1 hwf hcl
    refine ⟨bs, by simp [writeVal, hw], fun old rest => ?_⟩
    simp [readVal, hr (zeroVal t1) rest]
  | .chan, hwf0, hcl0 => by
    clear hwf hcl
    have hwf := hwf0
    have hcl := hcl0
    clear hwf0 hcl0
    cases t <;> simp only [wf] at hwf <;> simp only [clean] at hcl
  | .fn, hwf0, hcl0 => by
    clear hwf hcl
    have hwf := hwf0
    have hcl := hcl0
    clear hwf0 hcl0
    cases t <;> simp only [wf] at hwf <;> simp only [clean] at hcl
  | .rawPtr, hwf0, hcl0 => by
    clear hwf hcl
    have hwf := hwf0
    have hcl := hcl0
    clear hwf0 hcl0
    cases t <;> simp only [wf] at hwf <;> simp only [clean] at hcl
termination_by sizeOf v

/-- Round trip of the element loop. -/
theorem rt_list (t : GoType) (es : List GoVal) (hwf : wfList t es)
    (hcl : cleanList t es) :
    ∃ bs, writeList es = .ok bs ∧
      ∀ (olds : List GoVal) (rest : List Nat), olds.length = es.length →
        readElems t olds (bs ++ rest) = (none, es, rest) :=
  match es, hwf, hcl with
  | [], _, _ => by
    refine ⟨[], rfl, fun olds rest hlen => ?_⟩
    have : olds = [] := List.length_eq_zero.mp (by simpa using hlen)
    subst this
    simp [readElems]
  | v :: tl, hwf, hcl => by
    simp only [wfList] at hwf
    simp only [cleanList] at hcl
    obtain ⟨bs1, hw1, hr1⟩ := rt_val t v hwf.1 hcl.1
    obtain ⟨bs2, hw2, hr2⟩ := rt_list t tl hwf.2 hcl.2
    refine ⟨bs1 ++ bs2, by simp [writeList, hw1, hw2], fun olds rest hlen => ?_⟩
    cases olds with
    | nil => simp at hlen
    | cons o otl =>
      rw [List.append_assoc]
      simp only [readElems, hr1 o (bs2 ++ rest)]
      rw [hr2 otl rest (by simpa using hlen)]
termination_by sizeOf es

/-- Round trip of the map pair loop: with distinct keys every insertion
appends, so the pairs come back in written order. -/
theorem rt_pairs (kt vt : GoType) (ps : List (GoVal × GoVal))
    (hwf : wfPairs kt vt ps) (hcl : cleanPairs kt vt ps)
    (hnd : (ps.map Prod.fst).Nodup) :
    ∃ bs, writePairs ps = .ok bs ∧
      ∀ (acc : List (GoVal × GoVal)) (rest : List Nat),
        (∀ q ∈ acc, ∀ p ∈ ps, q.1 ≠ p.1) →
        readPairs kt vt ps.length acc (bs ++ rest) = (none, acc ++ ps, rest) :=
  match ps, hwf, hcl, hnd with
  | [], _, _, _ => by
    refine ⟨[], rfl, fun acc rest _ => ?_⟩
    simp [readPairs]
  | (k, v) :: tl, hwf, hcl, hnd => by
    simp only [wfPairs] at hwf
    simp only [cleanPairs] at hcl
    simp only [List.map_cons, List.nodup_cons] at hnd
    obtain ⟨bk, hwk, hrk⟩ := rt_val kt k hwf.1 hcl.1
    obtain ⟨bv, hwv, hrv⟩ := rt_val vt v hwf.2.1 hcl.2.1
    obtain ⟨btl, hwtl, hrtl⟩ := rt_pairs kt vt tl hwf.2.2 hcl.2.2 hnd.2
    refine ⟨bk ++ bv ++ btl, by simp [writePairs, hwk, hwv, hwtl],
      fun acc rest hacc => ?_⟩
    rw [List.append_assoc, List.append_assoc]
    simp only [List.length_cons, readPairs, hrk (zeroVal kt) (bv ++ (btl ++ rest)),
      hrv (zeroVal vt) (btl ++ rest)]
    have hins : setMapIndex acc k v = acc ++ [(k, v)] :=
      setMapIndex_append acc k v fun q hq => hacc q hq (k, v) (by simp)
    rw [hins, hrtl (acc ++ [(k, v)]) rest ?hdist]
    · simp
    case hdist =>
      intro q hq p hp
      rcases List.mem_append.mp hq with h | h
      · exact hacc q h p (by simp [hp])
      · simp at h
        subst h
        simp only [ne_eq]
        intro hkp
        exact hnd.1 (by rw [hkp]; exact List.mem_map_of_mem Prod.fst hp)
termination_by sizeOf ps

/-- Round trip of the struct field loop: skipped fields contribute no
bytes and keep the destination value, which `agreeSkip` pins to the value
being rebuilt. -/
theorem rt_fields (fts : List (String × GoType)) (fs : List (String × GoVal))
    (hwf : wfFields fts fs) (hcl : cleanFields fts fs) :
    ∃ bs, writeFields fs = .ok bs ∧
      ∀ (olds : List (String × GoVal)) (rest : List Nat),
        agreeSkip fts fs olds →
        readFields fts olds (bs ++ rest) = (none, fs, rest) :=
  match fs, hwf, hcl with
  | [], hwf0, hcl0 => by
    clear hwf hcl
    have hwf := hwf0
    clear hwf0 hcl0
    cases fts with
    | nil =>
      refine ⟨[], rfl, fun olds rest hag => ?_⟩
      cases olds with
      | nil => simp [readFields]
      | cons o otl => simp [agreeSkip] at hag
    | cons f fts1 => obtain ⟨nm, t⟩ := f; simp [wfFields] at hwf
  | (nm1, v) :: gs, hwf0, hcl0 => by
    clear hwf hcl
    have hwf := hwf0
    have hcl := hcl0
    clear hwf0 hcl0
    cases fts with
    | nil => simp [wfFields] at hwf
    | cons f fts1 =>
      obtain ⟨nm, t⟩ := f
      simp only [wfFields] at hwf
      simp only [cleanFields] at hcl
      obtain ⟨hnm, hv, hwf1⟩ := hwf
      obtain ⟨hcv, hcl1⟩ := hcl
      subst hnm
      obtain ⟨btl, hwtl, hrtl⟩ := rt_fields fts1 gs hwf1 hcl1
      by_cases hskip : skipName nm1
      · refine ⟨btl, by simp [writeFields, hskip, hwtl], fun olds rest hag => ?_⟩
        cases olds with
        | nil => simp [agreeSkip] at hag
        | cons o otl =>
          obtain ⟨nm2, ov⟩ := o
          simp only [agreeSkip] at hag
          obtain ⟨hnm2, hov, hag1⟩ := hag
          simp only [readFields]
          rw [if_pos hskip, hrtl otl rest hag1]
          simp [hnm2, hov hskip]
      · rw [if_neg hskip] at hcv
        obtain ⟨bv, hwv, hrv⟩ := rt_val t v hv hcv
        refine ⟨bv ++ btl, by simp [writeFields, hskip, hwv, hwtl],
          fun olds rest hag => ?_⟩
        cases olds with
        | nil => simp [agreeSkip] at hag
        | cons o otl =>
          obtain ⟨nm2, ov⟩ := o
          simp only [agreeSkip] at hag
          obtain ⟨hnm2, hov, hag1⟩ := hag
          rw [List.append_assoc]
          simp only [readFields]
          rw [if_neg hskip, hrv ov (btl ++ rest)]
          simp [hrtl otl rest hag1, hnm2]
termination_by sizeOf fs

end

/-! ## Export filtering: facts for the struct codec -/

/-- Writing a struct writes exactly its retained (exported,
non-placeholder) fields, in declaration order. -/
theorem writeFields_filter : ∀ (fs : List (String × GoVal)),
    writeFields fs = writeFields (fs.filter fun p => !skipName p.1) := by
  intro fs
  induction fs with
  | nil => rfl
  | cons p tl ih =>
    obtain ⟨nm, v⟩ := p
    by_cases hskip : skipName nm
    · have hf : ((nm, v) :: tl).filter (fun p => !skipName p.1) =
          tl.filter fun p => !skipName p.1 := by
        simp [List.filter_cons, hskip]
      rw [hf]
      simp only [writeFields]
      rw [if_pos hskip]
      exact ih
    · have hf : ((nm, v) :: tl).filter (fun p => !skipName p.1) =
          (nm, v) :: tl.filter fun p => !skipName p.1 := by
        simp [List.filter_cons, hskip]
      rw [hf]
      simp only [writeFields]
      rw [if_neg hskip, if_neg hskip, ih]

/-- The bytes of a struct do not depend on the values of skipped fields. -/
theorem writeFields_retained : ∀ (fs fs2 : List (String × GoVal)),
    eqOnRetained fs fs2 → writeFields fs = writeFields fs2 := by
  intro fs
  induction fs with
  | nil =>
    intro fs2 h
    cases fs2 with
    | nil => rfl
    | cons q tl2 => simp [eqOnRetained] at h
  | cons p tl ih =>
    obtain ⟨nm, v⟩ := p
    intro fs2 h
    cases fs2 with
    | nil => simp [eqOnRetained] at h
    | cons q tl2 =>
      obtain ⟨nm2, v2⟩ := q
      simp only [eqOnRetained] at h
      obtain ⟨hnm, hval, htl⟩ := h
      subst hnm
      by_cases hskip : skipName nm2
      · simp only [writeFields]
        rw [if_pos hskip, if_pos hskip]
        exact ih tl2 htl
      · have hv := hval (by simpa using hskip)
        subst hv
        simp only [writeFields]
        rw [if_neg hskip, if_neg hskip, ih tl2 htl]

theorem skippedKept_refl : ∀ (fts : List (String × GoType))
    (olds : List (String × GoVal)), skippedKept fts olds olds := by
  intro fts
  induction fts with
  | nil => intro olds; simp [skippedKept]
  | cons f fts1 ih =>
    obtain ⟨nm, t⟩ := f
    intro olds
    cases olds with
    | nil => simp [skippedKept]
    | cons o olds1 =>
      obtain ⟨nm0, ov⟩ := o
      simp only [skippedKept]
      exact ⟨by trivial, fun _ => by trivial, ih olds1⟩

/-- Decoding a struct never touches a skipped field: whatever happens
(including errors part-way), every skipped position still holds the
destination value it had before the call. -/
theorem readFields_skippedKept : ∀ (fts : List (String × GoType))
    (olds : List (String × GoVal)) (bs : List Nat),
    skippedKept fts olds (readFields fts olds bs).2.1 := by
  intro fts
  induction fts with
  | nil => intro olds bs; simp [readFields, skippedKept]
  | cons f fts1 ih =>
    obtain ⟨nm, t⟩ := f
    intro olds bs
    cases olds with
    | nil => simp [readFields, skippedKept]
    | cons o olds1 =>
      obtain ⟨nm0, ov⟩ := o
      by_cases hskip : skipName nm
      · simp only [readFields]
        rw [if_pos hskip]
        rcases hres : readFields fts1 olds1 bs with ⟨e, fs1, rest1⟩
        simp only [skippedKept]
        refine ⟨by trivial, fun _ => by trivial, ?_⟩
        have h2 := ih olds1 bs
        rw [hres] at h2
        exact h2
      · simp only [readFields]
        rw [if_neg hskip]
        rcases hrv : readVal t ov bs with ⟨eo, v1, rest1⟩
        cases eo with
        | some e =>
          simp only [skippedKept]
          exact ⟨by trivial, fun hs => absurd hs (by simpa using hskip),
            skippedKept_refl fts1 olds1⟩
        | none =>
          rcases hres : readFields fts1 olds1 rest1 with ⟨e, fs1, rest2⟩
          simp only [skippedKept]
          refine ⟨by trivial, fun hs => absurd hs (by simpa using hskip), ?_⟩
          have h2 := ih olds1 rest1
          rw [hres] at h2
          first
          | exact h2
          | (rw [hres]; exact h2)

/-! ## Determinism of the writer away from maps -/

theorem equivList_length : ∀ (a b : List GoVal), EquivList a b →
    a.length = b.length := by
  intro a
  induction a with
  | nil =>
    intro b h
    cases h
    rfl
  | cons v tl ih =>
    intro b h
    cases h with
    | cons h1 htl => simp [ih _ htl]

mutual

/-- Two representatives of one Go value produce identical bytes whenever
the value contains no map: the only write-visible nondeterminism in the
package is the iteration order of maps. -/
theorem det_val : ∀ (v1 v2 : GoVal), EquivVal v1 v2 → mapFree v1 = true →
    writeVal v1 = writeVal v2
  | _, _, .bool b, _ => rfl
  | _, _, .int w n, _ => rfl
  | _, _, .uint w n, _ => rfl
  | _, _, .float w bits, _ => rfl
  | _, _, .complex w re im, _ => rfl
  | _, _, .str bytes, _ => rfl
  | _, _, @EquivVal.array es fs hl, hmf => by
    simp only [writeVal]
    rw [det_list es fs hl (by simpa [mapFree] using hmf)]
  | _, _, @EquivVal.slice b es fs hl, hmf => by
    simp only [writeVal]
    rw [det_list es fs hl (by simpa [mapFree] using hmf),
      equivList_length es fs hl]
  | _, _, @EquivVal.map b ps qs rs hp hperm, hmf => by simp [mapFree] at hmf
  | _, _, @EquivVal.strukt fs gs hf, hmf => by
    simp only [writeVal]
    rw [det_fields fs gs hf (by simpa [mapFree] using hmf)]
  | _, _, .ptrNone, _ => rfl
  | _, _, @EquivVal.ptrSome v w h1, hmf => by
    simp only [writeVal]
    exact det_val v w h1 (by simpa [mapFree] using hmf)
  | _, _, .chan, _ => rfl
  | _, _, .fn, _ => rfl
  | _, _, .rawPtr, _ => rfl
termination_by v1 _ _ _ => sizeOf v1

theorem det_list : ∀ (l1 l2 : List GoVal), EquivList l1 l2 →
    mapFreeList l1 = true → writeList l1 = writeList l2
  | _, _, .nil, _ => rfl
  | _, _, @EquivList.cons v w tl tl2 h1 htl, hmf => by
    have hmf1 : mapFree v = true ∧ mapFreeList tl = true := by
      simpa [mapFreeList] using hmf
    simp only [writeList]
    rw [det_val v w h1 hmf1.1, det_list tl tl2 htl hmf1.2]
termination_by l1 _ _ _ => sizeOf l1

theorem det_fields : ∀ (f1 f2 : List (String × GoVal)), EquivFields f1 f2 →
    mapFreeFields f1 = true → writeFields f1 = writeFields f2
  | _, _, .nil, _ => rfl
  | _, _, @EquivFields.cons nm v w tl tl2 h1 htl, hmf => by
    have hmf1 : mapFree v = true ∧ mapFreeFields tl = true := by
      simpa [mapFreeFields] using hmf
    simp only [writeFields]
    rw [det_val v w h1 hmf1.1, det_fields tl tl2 htl hmf1.2]
termination_by f1 _ _ _ => sizeOf f1

end

/-! ## The claims -/

/-- C1 (amended).  Round trip: for every supported kind and every
well-formed value `v` of that kind, writing `v` and reading the produced
bytes back into a destination of the same type rebuilds exactly `v` —
provided `v` is `clean`: pointers are non-nil at every level, slices and
maps are non-nil, no float/complex component is a NaN pattern, and the
skipped (unexported or placeholder) fields of every struct hold their
zero values.  The original claim promises deep equality for every value
of the listed kinds; it fails as stated, e.g. for a struct whose
unexported field is nonzero (see the counterexample), because decode
rebuilds the value from a freshly zeroed temporary. -/
theorem claim1_round_trip (t : GoType) (v : GoVal) (hwf : wf t v)
    (hcl : clean t v) (old : GoVal) (rest : List Nat) :
    ∃ bs, writeVal v = .ok bs ∧ readVal t old (bs ++ rest) = ⟨none, v, rest⟩ := by
  obtain ⟨bs, hw, hr⟩ := rt_val t v hwf hcl
  exact ⟨bs, hw, hr old rest⟩

/-- C1, counterexample to the claim as stated: the struct value
`{A: true, b: true}` of type `struct {A bool; b bool}` writes one byte
(only the exported field `A`), and reading it back into a zero
destination yields `{A: true, b: false}`, which is not deeply equal to
the original — the unexported field came back zeroed. -/
theorem claim1_counterexample :
    writeVal (.strukt [("A", .bool true), ("b", .bool true)]) = .ok [1] ∧
    readVal (.strukt [("A", .bool), ("b", .bool)])
        (zeroVal (.strukt [("A", .bool), ("b", .bool)])) [1] =
      ⟨none, .strukt [("A", .bool true), ("b", .bool false)], []⟩ ∧
    GoVal.strukt [("A", .bool true), ("b", .bool false)] ≠
      GoVal.strukt [("A", .bool true), ("b", .bool true)] := by
  refine ⟨?_, ?_, ?_⟩
  · simp [writeVal, writeFields, skipName]
  · simp [readVal, readIP, readFields, zeroVal, zeroFields, skipName]
  · simp

theorem claim1_round_trip_witness :
    wf (.ptr .str) (.ptr (some (.str [97, 98]))) ∧
    clean (.ptr .str) (.ptr (some (.str [97, 98]))) ∧
    ∃ bs, writeVal (.ptr (some (.str [97, 98]))) = .ok bs ∧
      readVal (.ptr .str) (.ptr none) (bs ++ []) =
        ⟨none, .ptr (some (.str [97, 98])), []⟩ := by
  have h1 : wf (.ptr .str) (.ptr (some (.str [97, 98]))) := by
    simp [wf]
  have h2 : clean (.ptr .str) (.ptr (some (.str [97, 98]))) := by
    simp [clean]
  exact ⟨h1, h2, claim1_round_trip (.ptr .str) (.ptr (some (.str [97, 98])))
    h1 h2 (.ptr none) []⟩

/-- C2 (amended).  A nil pointer of any nesting depth writes the single
varint-zero byte `0x00`.  Reading that byte into a pointer destination
yields a non-nil pointer to the zero value of the pointee when the
pointee is a boolean, an integer of either signedness, or a text value —
kinds whose decoding consumes the lone zero byte as a complete value.
For a pointee that needs more bytes (e.g. `*float64`, whose decode wants
8 bytes), the lone byte is not a complete encoding and the read fails
with end-of-stream instead of producing a pointer; nilness is still
never round-tripped. -/
theorem claim2_nil_pointer (w : Nat) (hw : 1 ≤ w) (old : GoVal)
    (rest : List Nat) :
    (∀ v, NilChain v → writeVal v = .ok [0]) ∧
    readVal (.ptr .bool) old (0 :: rest) = ⟨none, .ptr (some (.bool false)), rest⟩ ∧
    readVal (.ptr (.int w)) old (0 :: rest) = ⟨none, .ptr (some (.int w 0)), rest⟩ ∧
    readVal (.ptr (.uint w)) old (0 :: rest) = ⟨none, .ptr (some (.uint w 0)), rest⟩ ∧
    readVal (.ptr .str) old (0 :: rest) = ⟨none, .ptr (some (.str [])), rest⟩ ∧
    (readVal (.ptr (.float 64)) old [0]).err = some .eof := by
  refine ⟨?_, ?_, ?_, ?_, ?_, ?_⟩
  · intro v h
    induction h with
    | base => simp [writeVal, putVarint, zigzag, putUvarint]
    | step h1 ih => simpa [writeVal] using ih
  · simp [readVal, readIP, zeroVal]
  · have hz : wrapSigned w 0 = 0 :=
      wrapSigned_eq_self w 0 hw (neg_nonpos.mpr (by positivity)) (by positivity)
    simp [readVal, readIP, zeroVal, readVarint, readUvarint, readUvarintAux,
      unzigzag, hz]
  · simp [readVal, readIP, zeroVal, readUvarint, readUvarintAux]
  · simp [readVal, readIP, zeroVal, readVarint, readUvarint, readUvarintAux,
      unzigzag]
  · simp [readVal, readIP, zeroVal, readLEBytes]

/-- C2, counterexample to the claim as stated: a nil pointer writes
`0x00`, but decoding that byte into a `*float64` destination does not
yield a non-nil pointer to `0.0` — the float decoder needs 8 bytes, so
the read fails with end-of-stream and the destination still holds nil. -/
theorem claim2_counterexample :
    writeVal (.ptr none) = .ok [0] ∧
    readVal (.ptr (.float 64)) (.ptr none) [0] = ⟨some .eof, .ptr none, []⟩ := by
  constructor
  · simp [writeVal, putVarint, zigzag, putUvarint]
  · simp [readVal, readIP, readLEBytes, zeroVal]

theorem claim2_nil_pointer_witness :
    1 ≤ 8 ∧
    readVal (.ptr (.uint 8)) (.ptr none) [0] =
      ⟨none, .ptr (some (.uint 8 0)), []⟩ := by
  refine ⟨by norm_num, ?_⟩
  have h := (claim2_nil_pointer 8 (by norm_num) (.ptr none) []).2.2.2.1
  simpa using h

/-- C3.  Boolean decode is strict: byte `0x00` decodes to `false`, byte
`0x01` to `true`, and every other byte value fails with the
`ErrUnexpected` ("unexpected value") error, leaving the destination
untouched — not a nonzero-means-true rule. -/
theorem claim3_bool_strict (b : Nat) (old : GoVal) (rest : List Nat) :
    readVal .bool old (0 :: rest) = ⟨none, .bool false, rest⟩ ∧
    readVal .bool old (1 :: rest) = ⟨none, .bool true, rest⟩ ∧
    (2 ≤ b → readVal .bool old (b :: rest) =
      ⟨some .unexpectedValue, old, rest⟩) := by
  refine ⟨?_, ?_, fun hb => ?_⟩
  · simp [readVal, readIP, zeroVal]
  · simp [readVal, readIP, zeroVal]
  · simp only [readVal, readIP, zeroVal]
    rw [if_neg (by omega), if_neg (by omega)]

theorem claim3_bool_strict_witness :
    2 ≤ 2 ∧ readVal .bool (.bool true) [2] =
      ⟨some .unexpectedValue, .bool true, []⟩ :=
  ⟨by norm_num, (claim3_bool_strict 2 (.bool true) []).2.2 (by norm_num)⟩

/-- C4 (amended).  Concrete wire bytes: the 32-bit signed integer `-1`
encodes as the single zig-zag varint byte `0x01`; the unsigned integer
`300` encodes as the two bytes `0xAC 0x02`; and the text `"ab"` encodes
as `0x04 0x61 0x62` — the length prefix is written through
`WriteNumber` on a signed `int`, i.e. as a zig-zag varint, so length 2
appears on the wire as `0x04`, not as the `0x02` the claim states.
Decoding each of these byte strings reproduces the original value. -/
theorem claim4_wire_bytes (old : GoVal) :
    writeVal (.int 32 (-1)) = .ok [1] ∧
    readVal (.int 32) old [1] = ⟨none, .int 32 (-1), []⟩ ∧
    writeVal (.uint 64 300) = .ok [172, 2] ∧
    readVal (.uint 64) old [172, 2] = ⟨none, .uint 64 300, []⟩ ∧
    writeVal (.str [97, 98]) = .ok [4, 97, 98] ∧
    readVal .str old [4, 97, 98] = ⟨none, .str [97, 98], []⟩ := by
  refine ⟨?_, ?_, ?_, ?_, ?_, ?_⟩
  · simp [writeVal, putVarint, zigzag, putUvarint]
  · have hw : wrapSigned 32 (-1) = -1 := by
      unfold wrapSigned
      norm_num
    simp [readVal, readIP, zeroVal, readVarint, readUvarint, readUvarintAux,
      unzigzag, hw]
  · simp [writeVal, putUvarint]
  · simp [readVal, readIP, zeroVal, readUvarint, readUvarintAux]
  · simp [writeVal, putVarint, zigzag, putUvarint]
  · simp [readVal, readIP, zeroVal, readVarint, readUvarint, readUvarintAux,
      unzigzag]

/-- C4, counterexample to the claim as stated: `"ab"` does not encode to
`0x02 0x61 0x62`; and decoding those bytes as text yields `"a"` with one
byte left over, because `0x02` is the zig-zag encoding of length 1. -/
theorem claim4_counterexample :
    writeVal (.str [97, 98]) ≠ .ok [2, 97, 98] ∧
    readVal .str (.str []) [2, 97, 98] = ⟨none, .str [97], [98]⟩ := by
  constructor
  · simp [writeVal, putVarint, zigzag, putUvarint]
  · simp [readVal, readIP, zeroVal, readVarint, readUvarint, readUvarintAux,
      unzigzag]

theorem claim4_wire_bytes_witness :
    writeVal (.int 32 (-1)) = .ok [1] ∧
    readVal (.int 32) (.int 32 7) [1] = ⟨none, .int 32 (-1), []⟩ :=
  ⟨(claim4_wire_bytes (.int 32 7)).1, (claim4_wire_bytes (.int 32 7)).2.1⟩

/-- C5.  Export filtering is symmetric and non-invasive: a struct writes
exactly its exported, non-placeholder fields in declaration order (the
filtered list), the written bytes do not depend on the values of skipped
fields, and a struct decode leaves every skipped field of the
destination unchanged, even when it fails part-way. -/
theorem claim5_export_filter (fs fs2 : List (String × GoVal))
    (fts : List (String × GoType)) (olds : List (String × GoVal))
    (bs : List Nat) (h : eqOnRetained fs fs2) :
    writeVal (.strukt fs) = writeVal (.strukt fs2) ∧
    writeFields fs = writeFields (fs.filter fun p => !skipName p.1) ∧
    skippedKept fts olds (readFields fts olds bs).2.1 := by
  refine ⟨?_, writeFields_filter fs, readFields_skippedKept fts olds bs⟩
  simp only [writeVal]
  exact writeFields_retained fs fs2 h

theorem claim5_export_filter_witness :
    eqOnRetained [("A", .bool true), ("b", .uint 8 3)]
      [("A", .bool true), ("b", .uint 8 9)] ∧
    writeVal (.strukt [("A", .bool true), ("b", .uint 8 3)]) =
      writeVal (.strukt [("A", .bool true), ("b", .uint 8 9)]) := by
  have h : eqOnRetained [("A", .bool true), ("b", .uint 8 3)]
      [("A", .bool true), ("b", .uint 8 9)] := by
    simp [eqOnRetained, skipName]
  exact ⟨h, (claim5_export_filter _ _ [] [] [] h).1⟩

/-- C6.  For every container decode — text, slice, map — a negative
varint length/count prefix fails with the `ErrUnexpected` ("unexpected
value") error, the destination is untouched, and the stream is left
right after the prefix: no elements are read. -/
theorem claim6_negative_count (t1 kt vt : GoType) (old : GoVal)
    (bs rest : List Nat) (l : Int) (hread : readVarint bs = (none, l, rest))
    (hneg : l < 0) :
    readVal .str old bs = ⟨some .unexpectedValue, old, rest⟩ ∧
    readVal (.slice t1) old bs = ⟨some .unexpectedValue, old, rest⟩ ∧
    readVal (.map kt vt) old bs = ⟨some .unexpectedValue, old, rest⟩ := by
  refine ⟨?_, ?_, ?_⟩ <;>
    · simp only [readVal, readIP, zeroVal, hread]
      rw [if_pos hneg]

theorem claim6_negative_count_witness :
    readVarint [1] = (none, -1, []) ∧ (-1 : Int) < 0 ∧
    readVal .str (.str [5]) [1] = ⟨some .unexpectedValue, .str [5], []⟩ := by
  have h : readVarint [1] = (none, -1, []) := by
    simp [readVarint, readUvarint, readUvarintAux, unzigzag]
  exact ⟨h, by norm_num,
    (claim6_negative_count .bool .bool .bool (.str [5]) [1] [] (-1) h
      (by norm_num)).1⟩

/-- C7.  Floats of either declared width write exactly 8 bytes — the
little-endian 64-bit pattern of the promoted value (the model stores the
promoted pattern, since `v.Float()` promotes before the wire is
touched); complexes of either width write exactly 16 bytes, the real
part's 8 bytes then the imaginary part's; the declared width never
changes the byte output; and decode reads the same pattern back into
the destination (whose width only governs the in-memory narrowing). -/
theorem claim7_float_wire (w w2 : Nat) (bits re im : Nat) (old : GoVal)
    (rest : List Nat) (hb : bits < 2 ^ 64) (hre : re < 2 ^ 64)
    (him : im < 2 ^ 64) :
    writeVal (.float w bits) = .ok (le64 bits) ∧
    (le64 bits).length = 8 ∧
    writeVal (.float w bits) = writeVal (.float w2 bits) ∧
    writeVal (.complex w re im) = .ok (le64 re ++ le64 im) ∧
    (le64 re ++ le64 im).length = 16 ∧
    writeVal (.complex w re im) = writeVal (.complex w2 re im) ∧
    readVal (.float w) old (le64 bits ++ rest) = ⟨none, .float w bits, rest⟩ ∧
    readVal (.complex w) old (le64 re ++ le64 im ++ rest) =
      ⟨none, .complex w re im, rest⟩ := by
  refine ⟨by simp [writeVal], by simp [le64, toLEBytes], by simp [writeVal],
    by simp [writeVal], by simp [le64, toLEBytes], by simp [writeVal], ?_, ?_⟩
  · simp [readVal, readIP, zeroVal, le64,
      readLEBytes_toLE 8 bits rest (by norm_num; omega)]
  · rw [List.append_assoc]
    simp [readVal, readIP, zeroVal, le64,
      readLEBytes_toLE 8 re _ (by norm_num; omega),
      readLEBytes_toLE 8 im rest (by norm_num; omega)]

theorem claim7_float_wire_witness :
    (3 : Nat) < 2 ^ 64 ∧
    writeVal (.float 32 3) = .ok (le64 3) ∧ (le64 3).length = 8 := by
  have h := claim7_float_wire 32 64 3 0 0 (.bool false) []
    (by norm_num) (by norm_num) (by norm_num)
  exact ⟨by norm_num, h.1, h.2.1⟩

/-- C8.  Values of the unsupported kinds — channel, function, unsafe
pointer — make `Write` fail with `ErrUnsupportedValue` (the dispatch
falls through to `WriteNumberReflect`, whose default arm rejects them),
and `Read` into such a destination fails the same way without touching
the destination or the stream; neither is a silent no-op. -/
theorem claim8_unsupported (old : GoVal) (bs : List Nat) :
    writeVal .chan = .error .unsupportedValue ∧
    writeVal .fn = .error .unsupportedValue ∧
    writeVal .rawPtr = .error .unsupportedValue ∧
    readVal .chan old bs = ⟨some .unsupportedValue, old, bs⟩ ∧
    readVal .fn old bs = ⟨some .unsupportedValue, old, bs⟩ ∧
    readVal .rawPtr old bs = ⟨some .unsupportedValue, old, bs⟩ := by
  refine ⟨by simp [writeVal], by simp [writeVal], by simp [writeVal],
    ?_, ?_, ?_⟩ <;> simp [readVal, readIP, zeroVal]

theorem claim8_unsupported_witness :
    writeVal .chan = .error .unsupportedValue ∧
    readVal .chan (.bool true) [7] = ⟨some .unsupportedValue, .bool true, [7]⟩ :=
  ⟨(claim8_unsupported (.bool true) [7]).1,
   (claim8_unsupported (.bool true) [7]).2.2.2.1⟩

/-- C9 (amended).  Encoding is deterministic for every scalar, string,
array, slice, or struct value that contains no map anywhere inside it:
two `Write` calls on the same unmutated value — modelled as two
representatives related by `EquivVal`, which allows each map's pairs to
appear in a different iteration order — produce byte-for-byte identical
output.  The claim as stated also promises this for every struct value,
but a struct containing a map inherits the map's unspecified iteration
order and may produce different bytes on each call (see the
counterexample); for such values only the decoded key/value content is
guaranteed, not the bytes. -/
theorem claim9_determinism (v1 v2 : GoVal) (h : EquivVal v1 v2)
    (hmf : mapFree v1 = true) : writeVal v1 = writeVal v2 :=
  det_val v1 v2 h hmf

/-- C9, counterexample to the claim as stated: one struct value holding
a two-entry map, written under its two possible iteration orders (the
two sides are `EquivVal`, i.e. the same Go value), yields two different
byte strings — so encoding a struct value twice need not produce
identical output. -/
theorem claim9_counterexample :
    EquivVal
      (.strukt [("M", .map false [(.uint 8 1, .uint 8 3), (.uint 8 2, .uint 8 4)])])
      (.strukt [("M", .map false [(.uint 8 2, .uint 8 4), (.uint 8 1, .uint 8 3)])]) ∧
    writeVal
        (.strukt [("M", .map false [(.uint 8 1, .uint 8 3), (.uint 8 2, .uint 8 4)])]) ≠
      writeVal
        (.strukt [("M", .map false [(.uint 8 2, .uint 8 4), (.uint 8 1, .uint 8 3)])]) := by
  constructor
  · exact EquivVal.strukt (EquivFields.cons "M"
      (EquivVal.map false
        (EquivPairs.cons (EquivVal.uint 8 1) (EquivVal.uint 8 3)
          (EquivPairs.cons (EquivVal.uint 8 2) (EquivVal.uint 8 4)
            EquivPairs.nil))
        (List.Perm.swap (GoVal.uint 8 2, GoVal.uint 8 4)
          (GoVal.uint 8 1, GoVal.uint 8 3) []))
      EquivFields.nil)
  · simp [writeVal, writeFields, writePairs, skipName, putVarint, putUvarint,
      zigzag]

theorem claim9_determinism_witness :
    EquivVal (.strukt [("A", .uint 8 1)]) (.strukt [("A", .uint 8 1)]) ∧
    mapFree (.strukt [("A", .uint 8 1)]) = true ∧
    writeVal (.strukt [("A", .uint 8 1)]) =
      writeVal (.strukt [("A", .uint 8 1)]) := by
  have h : EquivVal (.strukt [("A", .uint 8 1)]) (.strukt [("A", .uint 8 1)]) :=
    EquivVal.strukt (EquivFields.cons "A" (EquivVal.uint 8 1) EquivFields.nil)
  have hm : mapFree (.strukt [("A", .uint 8 1)]) = true := by
    simp [mapFree, mapFreeFields]
  exact ⟨h, hm, claim9_determinism _ _ h hm⟩

/-- C10.  Top-level decode is atomic: `ReadReflect` decodes into a fresh
temporary and assigns it to the destination only after the whole read of
that value succeeds, so whenever `Read` reports an error the destination
still holds exactly the value it had before the call. -/
theorem claim10_atomic_read (t : GoType) (old : GoVal) (bs : List Nat)
    (e : Err) (h : (readVal t old bs).err = some e) :
    (readVal t old bs).val = old := by
  cases t <;> simp only [readVal] at h ⊢ <;> split at h <;> simp_all

theorem claim10_atomic_read_witness :
    (readVal .bool (.bool true) [5]).err = some .unexpectedValue ∧
    (readVal .bool (.bool true) [5]).val = .bool true := by
  have h : (readVal .bool (.bool true) [5]).err = some .unexpectedValue := by
    simp [readVal, readIP, zeroVal]
  exact ⟨h, claim10_atomic_read .bool (.bool true) [5] .unexpectedValue h⟩

end Binaryex
